import Mathlib

/-!
Shallow embedding of `src/src/oblivious_transfer/alsz_13.rs`, the semi-honest
1-out-of-2 oblivious-transfer protocol (ALSZ 2013, protocol 5.1).

Modelling choices, justified by the spec's scope section (the elliptic-curve
group, the hash function and the secure RNG are external collaborators):

* The curv ed25519 prime-order group is cyclic of prime order `q`, generated
  by `g`.  Every group element is `g^k` for a unique exponent `k : ZMod q`,
  so group elements (`GE`) are represented by their discrete logarithm with
  respect to `g`: the generator is exponent `1`, point-times-scalar
  multiplication (`h * r` in the Rust source) multiplies the exponent by the
  scalar, and point addition/subtraction adds/subtracts exponents.  Scalars
  (`FE`, field elements mod the group order) are also `ZMod q`.
* `FE::new_random()` draws from the process-wide secure RNG.  The RNG is made
  explicit as a state `Rng`: an infinite stream of scalars together with a
  cursor; each draw returns the scalar at the cursor and advances it.  All
  functions that draw randomness take and return an `Rng`.
* The Rust `assert!(sigma == 0 || sigma == 1)` aborts the call when the choice
  bit is invalid; the abort is modelled as the `Except` error
  `OTError.InvalidChoiceBit` (the spec's name for exactly this failure), and
  the RNG state is returned unchanged, as the assert precedes every draw.
* The composite `h(k.get_element().to_bytes().to_vec())` — SHA-256 applied to
  the canonical 32-byte encoding of a group element — is an external
  collaborator; it is passed in as a parameter `kdf : GE → List Nat` mapping a
  group element to its digest byte list.  Wherever the digest size matters a
  hypothesis `∀ p, (kdf p).length = 32` records SHA-256's output size.
* Bytes are `Nat` (values below 256; `^^^` on such values never leaves the
  range), byte vectors `Vec<u8>` are `List Nat`, and `itertools::multizip`
  over 4 or 5 vectors is `zip4` / `zip5`, which stop at the shortest input.
-/

namespace ALSZ13

/-- Decidable equality for `Except`, so concrete protocol runs can be checked
by `decide`. -/
instance {ε α : Type} [DecidableEq ε] [DecidableEq α] : DecidableEq (Except ε α)
  | .ok a, .ok b =>
    if h : a = b then .isTrue (by rw [h])
    else .isFalse (by intro hc; cases hc; exact h rfl)
  | .ok _, .error _ => .isFalse (by intro hc; cases hc)
  | .error _, .ok _ => .isFalse (by intro hc; cases hc)
  | .error e, .error f =>
    if h : e = f then .isTrue (by rw [h])
    else .isFalse (by intro hc; cases hc; exact h rfl)

/-- Order of the prime-order ed25519 group used by curv
(the scalar field modulus of Ed25519). -/
def q : Nat := 2 ^ 252 + 27742317777372353535851937790883648493

/-- Scalars (field elements modulo the group order), Rust type `FE`. -/
abbrev FE := ZMod q

/-- Group elements, Rust type `GE`, represented by their discrete logarithm
with respect to the generator. -/
abbrev GE := ZMod q

/-- The group generator `GE::generator()`: exponent 1. -/
def generator : GE := 1

/-- Point-times-scalar multiplication `p * s` on group elements: in the
exponent representation it multiplies the exponent by the scalar. -/
def pmul (p : GE) (s : FE) : GE := p * s

/-- Point addition (used only by the spec-modelled direct group-element
variant): adds exponents. -/
def padd (p r : GE) : GE := p + r

/-- Point subtraction (used only by the spec-modelled direct group-element
variant): subtracts exponents. -/
def psub (p r : GE) : GE := p - r

/-- Explicit state of the secure random number generator: an infinite stream
of scalars and a cursor into it. -/
structure Rng where
  stream : Nat → FE
  idx : Nat

/-- Draw one scalar (`FE::new_random()`): return the scalar under the cursor
and advance the cursor. -/
def Rng.next (rng : Rng) : FE × Rng := (rng.stream rng.idx, ⟨rng.stream, rng.idx + 1⟩)

/-- Advance the cursor by `n` draws (specification helper). -/
def Rng.advance (rng : Rng) (n : Nat) : Rng := ⟨rng.stream, rng.idx + n⟩

/-- Protocol errors; `InvalidChoiceBit` models the failure of
`assert!(sigma == 0 || sigma == 1)`. -/
inductive OTError where
  | InvalidChoiceBit
deriving DecidableEq

/-- Receiver setup, `first_round` of the source: checks the choice bit, draws
the private scalar `a_i` and an independent scalar for the decoy element
`h_i = g * t`, and places `g * a_i` in the branch selected by `sigma`. -/
def first_round (sigma : Nat) (rng : Rng) : Except OTError (FE × GE × GE) × Rng :=
  if sigma = 0 ∨ sigma = 1 then
    let g := generator
    let (a_i, rng) := rng.next
    let (t, rng) := rng.next
    let h_i := pmul g t
    let (h_0, h_1) :=
      if sigma = 0 then (pmul g a_i, h_i) else (h_i, pmul g a_i)
    (.ok (a_i, h_0, h_1), rng)
  else
    (.error .InvalidChoiceBit, rng)

/-- Map an RNG-threading fallible function over a list, stopping at the first
failure (a Rust panic aborts the whole batch call). -/
def mapRngE (f : α → Rng → Except OTError β × Rng) :
    List α → Rng → Except OTError (List β) × Rng
  | [], rng => (.ok [], rng)
  | a :: as, rng =>
    match f a rng with
    | (.ok b, rng1) =>
      match mapRngE f as rng1 with
      | (.ok bs, rng2) => (.ok (b :: bs), rng2)
      | (.error e, rng2) => (.error e, rng2)
    | (.error e, rng1) => (.error e, rng1)

/-- Map an RNG-threading total function over a list. -/
def mapRng (f : α → Rng → β × Rng) : List α → Rng → List β × Rng
  | [], rng => ([], rng)
  | a :: as, rng =>
    let (b, rng1) := f a rng
    let (bs, rng2) := mapRng f as rng1
    (b :: bs, rng2)

/-- Batched receiver setup, `first_round_batch` of the source: maps
`first_round` over the choice bits and unzips the triples. -/
def first_round_batch (sigma_vec : List Nat) (rng : Rng) :
    Except OTError (List FE × List GE × List GE) × Rng :=
  match mapRngE first_round sigma_vec rng with
  | (.ok tmp_vec, rng1) =>
    (.ok (tmp_vec.map (fun x => x.1), tmp_vec.map (fun x => x.2.1),
          tmp_vec.map (fun x => x.2.2)), rng1)
  | (.error e, rng1) => (.error e, rng1)

/-- Byte-wise exclusive or of two byte vectors, `xor` of the source: zips the
two lists, so the result has the length of the shorter input. -/
def xor (x y : List Nat) : List Nat := List.zipWith Nat.xor x y

/-- Sender response, `second_round` of the source, parameterized by the
external KDF (SHA-256 of the canonical encoding): draws one ephemeral scalar
`r`, computes `u = g * r`, the shared secrets `k_b = h_b * r`, and masks each
message with the digest of its shared secret. -/
def second_round (kdf : GE → List Nat) (x_0 : List Nat) (h_0 : GE)
    (x_1 : List Nat) (h_1 : GE) (rng : Rng) : (GE × List Nat × List Nat) × Rng :=
  let g := generator
  let (r, rng) := rng.next
  let u := pmul g r
  let k_0 := pmul h_0 r
  let k_1 := pmul h_1 r
  let kdf_0 := kdf k_0
  let v_0 := xor kdf_0 x_0
  let kdf_1 := kdf k_1
  let v_1 := xor kdf_1 x_1
  ((u, v_0, v_1), rng)

/-- Multizip (`itertools::multizip`) over four vectors: stops at the shortest. -/
def zip4 : List α → List β → List γ → List δ → List (α × β × γ × δ)
  | a :: as, b :: bs, c :: cs, d :: ds => (a, b, c, d) :: zip4 as bs cs ds
  | _, _, _, _ => []

/-- Multizip (`itertools::multizip`) over five vectors: stops at the shortest. -/
def zip5 : List α → List β → List γ → List δ → List ε →
    List (α × β × γ × δ × ε)
  | a :: as, b :: bs, c :: cs, d :: ds, e :: es =>
    (a, b, c, d, e) :: zip5 as bs cs ds es
  | _, _, _, _, _ => []

/-- Batched sender response, `second_round_batch` of the source: multizips the
four input vectors, maps `second_round` over the tuples, and unzips. -/
def second_round_batch (kdf : GE → List Nat) (x_0_vec : List (List Nat))
    (h_0_vec : List GE) (x_1_vec : List (List Nat)) (h_1_vec : List GE)
    (rng : Rng) : (List GE × List (List Nat) × List (List Nat)) × Rng :=
  let (tmp_vec, rng1) :=
    mapRng (fun t r => second_round kdf t.1 t.2.1 t.2.2.1 t.2.2.2 r)
      (zip4 x_0_vec h_0_vec x_1_vec h_1_vec) rng
  ((tmp_vec.map (fun x => x.1), tmp_vec.map (fun x => x.2.1),
    tmp_vec.map (fun x => x.2.2)), rng1)

/-- Receiver recovery, `output_computation` of the source: checks the choice
bit, selects `v_sigma`, recomputes the shared secret `k_sigma = u * a_i`, and
unmasks with the digest of `k_sigma`. -/
def output_computation (kdf : GE → List Nat) (sigma : Nat) (a_i : FE) (u : GE)
    (v_0 v_1 : List Nat) : Except OTError (List Nat) :=
  if sigma = 0 ∨ sigma = 1 then
    let v_sigma := if sigma = 0 then v_0 else v_1
    let k_sigma := pmul u a_i
    let kdf_sigma := kdf k_sigma
    .ok (xor v_sigma kdf_sigma)
  else
    .error .InvalidChoiceBit

/-- Map a fallible function over a list, stopping at the first failure. -/
def mapE (f : α → Except OTError β) : List α → Except OTError (List β)
  | [] => .ok []
  | a :: as =>
    match f a with
    | .ok b =>
      match mapE f as with
      | .ok bs => .ok (b :: bs)
      | .error e => .error e
    | .error e => .error e

/-- Batched receiver recovery, `output_computation_batch` of the source:
multizips the five input vectors and maps `output_computation`. -/
def output_computation_batch (kdf : GE → List Nat) (sigma_vec : List Nat)
    (a_i_vec : List FE) (u_vec : List GE) (v_0_vec v_1_vec : List (List Nat)) :
    Except OTError (List (List Nat)) :=
  mapE (fun t => output_computation kdf t.1 t.2.1 t.2.2.1 t.2.2.2.1 t.2.2.2.2)
    (zip5 sigma_vec a_i_vec u_vec v_0_vec v_1_vec)

/-- Modelled from the spec: the direct additive group-element variant of the
sender response is part of this repository but its file is not under `src/`
(only the masked-XOR variant `alsz_13.rs` is).  Following spec sections 4.2
and 4.4: draws a fresh ephemeral scalar `r`, computes `u = g^r`, and blinds
each group-element message additively, `v_b = h_b^r + x_b`, with no hashing. -/
def second_round_group (x_0 : GE) (h_0 : GE) (x_1 : GE) (h_1 : GE)
    (rng : Rng) : (GE × GE × GE) × Rng :=
  let g := generator
  let (r, rng) := rng.next
  let u := pmul g r
  let v_0 := padd (pmul h_0 r) x_0
  let v_1 := padd (pmul h_1 r) x_1
  ((u, v_0, v_1), rng)

/-- Modelled from the spec: the direct additive group-element variant of the
receiver recovery, whose file is not under `src/`.  Following spec sections
4.3 and 4.4: requires `sigma ∈ {0,1}` (else `InvalidChoiceBit`), computes the
shared secret `k_sigma = u^a`, and recovers `x = v_sigma - k_sigma` by group
subtraction. -/
def output_computation_group (sigma : Nat) (a_i : FE) (u : GE)
    (v_0 v_1 : GE) : Except OTError GE :=
  if sigma = 0 ∨ sigma = 1 then
    let v_sigma := if sigma = 0 then v_0 else v_1
    let k_sigma := pmul u a_i
    .ok (psub v_sigma k_sigma)
  else
    .error .InvalidChoiceBit

/-! Basic lemmas about the RNG state, the byte-wise xor and the round
functions. -/

theorem Rng.advance_zero (rng : Rng) : rng.advance 0 = rng := rfl

theorem Rng.advance_advance (rng : Rng) (m n : Nat) :
    (rng.advance m).advance n = rng.advance (m + n) := by
  simp [Rng.advance, Nat.add_assoc]

theorem xor_length (x y : List Nat) :
    (xor x y).length = min x.length y.length := by
  simp [xor]

theorem xor_xor_cancel (m x : List Nat) : xor (xor m x) m = x.take m.length := by
  induction m generalizing x with
  | nil => simp [xor]
  | cons a m ih =>
    cases x with
    | nil => simp [xor]
    | cons b x =>
      have hb : (a ^^^ b) ^^^ a = b := by
        rw [Nat.xor_comm a b, Nat.xor_cancel_right]
      simp [xor, List.take_cons] at ih ⊢
      exact ⟨hb, ih x⟩

theorem first_round_valid (sigma : Nat) (rng : Rng) (h : sigma = 0 ∨ sigma = 1) :
    first_round sigma rng =
      (.ok (rng.stream rng.idx,
        (if sigma = 0 then pmul generator (rng.stream rng.idx)
         else pmul generator (rng.stream (rng.idx + 1))),
        (if sigma = 0 then pmul generator (rng.stream (rng.idx + 1))
         else pmul generator (rng.stream rng.idx))),
       rng.advance 2) := by
  rcases h with h | h <;> subst h <;> rfl

theorem first_round_invalid (sigma : Nat) (rng : Rng)
    (h : ¬(sigma = 0 ∨ sigma = 1)) :
    first_round sigma rng = (.error .InvalidChoiceBit, rng) := by
  simp [first_round, h]

theorem second_round_eq (kdf : GE → List Nat) (x_0 : List Nat) (h_0 : GE)
    (x_1 : List Nat) (h_1 : GE) (rng : Rng) :
    second_round kdf x_0 h_0 x_1 h_1 rng =
      ((pmul generator (rng.stream rng.idx),
        xor (kdf (pmul h_0 (rng.stream rng.idx))) x_0,
        xor (kdf (pmul h_1 (rng.stream rng.idx))) x_1),
       rng.advance 1) := rfl

theorem output_computation_valid (kdf : GE → List Nat) (sigma : Nat)
    (h : sigma = 0 ∨ sigma = 1) (a_i : FE) (u : GE) (v_0 v_1 : List Nat) :
    output_computation kdf sigma a_i u v_0 v_1 =
      .ok (xor (if sigma = 0 then v_0 else v_1) (kdf (pmul u a_i))) := by
  rcases h with h | h <;> subst h <;> rfl

theorem output_computation_invalid (kdf : GE → List Nat) (sigma : Nat)
    (h : ¬(sigma = 0 ∨ sigma = 1)) (a_i : FE) (u : GE) (v_0 v_1 : List Nat) :
    output_computation kdf sigma a_i u v_0 v_1 = .error .InvalidChoiceBit := by
  simp [output_computation, h]

/-- Core correctness of one honest run, for messages of arbitrary length: the
recovered value is the first `32` bytes of the chosen message (all of it when
it has at most 32 bytes). -/
theorem ot_single_take (kdf : GE → List Nat) (Hkdf : ∀ p, (kdf p).length = 32)
    (sigma : Nat) (hσ : sigma = 0 ∨ sigma = 1) (x_0 x_1 : List Nat)
    (rng1 rng2 : Rng) (a : FE) (h_0 h_1 : GE) (u : GE) (v_0 v_1 : List Nat)
    (hf : (first_round sigma rng1).1 = .ok (a, h_0, h_1))
    (hs : (second_round kdf x_0 h_0 x_1 h_1 rng2).1 = (u, v_0, v_1)) :
    output_computation kdf sigma a u v_0 v_1 =
      .ok ((if sigma = 0 then x_0 else x_1).take 32) := by
  rw [first_round_valid sigma rng1 hσ] at hf
  rw [second_round_eq] at hs
  simp only [Except.ok.injEq, Prod.mk.injEq] at hf hs
  obtain ⟨ha, hh0, hh1⟩ := hf
  obtain ⟨hu, hv0, hv1⟩ := hs
  rw [output_computation_valid kdf sigma hσ]
  rcases hσ with h | h
  · subst h
    simp only [reduceIte] at hh0 hh1 ⊢
    subst ha hh0 hu hv0
    have key : pmul (pmul generator (rng1.stream rng1.idx)) (rng2.stream rng2.idx)
        = pmul (pmul generator (rng2.stream rng2.idx)) (rng1.stream rng1.idx) := by
      simp only [pmul, generator]; ring
    rw [key, xor_xor_cancel, Hkdf]
  · subst h
    rw [if_neg (by decide : ¬(1 = 0))] at hh0
    rw [if_neg (by decide : ¬(1 = 0))] at hh1
    rw [if_neg (by decide : ¬(1 = 0)), if_neg (by decide : ¬(1 = 0))]
    subst ha hh1 hu hv1
    have key : pmul (pmul generator (rng1.stream rng1.idx)) (rng2.stream rng2.idx)
        = pmul (pmul generator (rng2.stream rng2.idx)) (rng1.stream rng1.idx) := by
      simp only [pmul, generator]; ring
    rw [key, xor_xor_cancel, Hkdf]

/-! Lemmas about list indexing, the multizip combinators and the RNG-threading
maps, used to relate the batched rounds to the single-instance rounds. -/

theorem getD_map_lt (f : α → β) (l : List α) (i : Nat) (d : α) (d2 : β)
    (hi : i < l.length) : (l.map f).getD i d2 = f (l.getD i d) := by
  induction l generalizing i with
  | nil => cases hi
  | cons a as ih =>
    cases i with
    | zero => simp
    | succ j => simpa using ih j (by simpa using hi)

theorem getD_mem_of_lt (l : List α) (i : Nat) (d : α) (hi : i < l.length) :
    l.getD i d ∈ l := by
  induction l generalizing i with
  | nil => cases hi
  | cons a as ih =>
    cases i with
    | zero => simp
    | succ j =>
      simp only [List.getD_cons_succ]
      exact List.mem_cons_of_mem a (ih j (by simpa using hi))

theorem zip4_length (as : List α) (bs : List β) (cs : List γ) (ds : List δ) :
    (zip4 as bs cs ds).length
      = min (min (min as.length bs.length) cs.length) ds.length := by
  induction as generalizing bs cs ds with
  | nil => cases bs <;> cases cs <;> cases ds <;> simp [zip4]
  | cons a as ih =>
    cases bs <;> cases cs <;> cases ds <;> simp [zip4, ih] <;> omega

theorem zip5_length (as : List α) (bs : List β) (cs : List γ) (ds : List δ)
    (es : List ε) :
    (zip5 as bs cs ds es).length
      = min (min (min (min as.length bs.length) cs.length) ds.length)
          es.length := by
  induction as generalizing bs cs ds es with
  | nil => cases bs <;> cases cs <;> cases ds <;> cases es <;> simp [zip5]
  | cons a as ih =>
    cases bs with
    | nil => simp [zip5]
    | cons b bs =>
      cases cs with
      | nil => simp [zip5]
      | cons c cs =>
        cases ds with
        | nil => simp [zip5]
        | cons d ds =>
          cases es with
          | nil => simp [zip5]
          | cons e es =>
            simp only [zip5, List.length_cons, ih]
            omega

theorem zip4_getD (as : List α) (bs : List β) (cs : List γ) (ds : List δ)
    (i : Nat) (da : α) (db : β) (dc : γ) (dd : δ)
    (hi : i < (zip4 as bs cs ds).length) :
    (zip4 as bs cs ds).getD i (da, db, dc, dd)
      = (as.getD i da, bs.getD i db, cs.getD i dc, ds.getD i dd) := by
  induction as generalizing bs cs ds i with
  | nil => simp [zip4] at hi
  | cons a as ih =>
    cases bs with
    | nil => simp [zip4] at hi
    | cons b bs =>
      cases cs with
      | nil => simp [zip4] at hi
      | cons c cs =>
        cases ds with
        | nil => simp [zip4] at hi
        | cons d ds =>
          cases i with
          | zero => simp [zip4]
          | succ j =>
            simp only [zip4, List.getD_cons_succ]
            exact ih bs cs ds j (by simpa [zip4] using hi)

theorem zip5_getD (as : List α) (bs : List β) (cs : List γ) (ds : List δ)
    (es : List ε) (i : Nat) (da : α) (db : β) (dc : γ) (dd : δ) (de : ε)
    (hi : i < (zip5 as bs cs ds es).length) :
    (zip5 as bs cs ds es).getD i (da, db, dc, dd, de)
      = (as.getD i da, bs.getD i db, cs.getD i dc, ds.getD i dd,
         es.getD i de) := by
  induction as generalizing bs cs ds es i with
  | nil => simp [zip5] at hi
  | cons a as ih =>
    cases bs with
    | nil => simp [zip5] at hi
    | cons b bs =>
      cases cs with
      | nil => simp [zip5] at hi
      | cons c cs =>
        cases ds with
        | nil => simp [zip5] at hi
        | cons d ds =>
          cases es with
          | nil => simp [zip5] at hi
          | cons e es =>
            cases i with
            | zero => simp [zip5]
            | succ j =>
              simp only [zip5, List.getD_cons_succ]
              exact ih bs cs ds es j (by simpa [zip5] using hi)

theorem zip5_mem_fst (as : List α) (bs : List β) (cs : List γ) (ds : List δ)
    (es : List ε) (t : α × β × γ × δ × ε)
    (ht : t ∈ zip5 as bs cs ds es) : t.1 ∈ as := by
  induction as generalizing bs cs ds es with
  | nil => cases bs <;> cases cs <;> cases ds <;> cases es <;> simp [zip5] at ht
  | cons a as ih =>
    cases bs with
    | nil => simp [zip5] at ht
    | cons b bs =>
      cases cs with
      | nil => simp [zip5] at ht
      | cons c cs =>
        cases ds with
        | nil => simp [zip5] at ht
        | cons d ds =>
          cases es with
          | nil => simp [zip5] at ht
          | cons e es =>
            rcases (List.mem_cons).1 ht with h | h
            · subst h; exact List.mem_cons_self a as
            · exact List.mem_cons_of_mem a (ih bs cs ds es h)

/-- Running `mapRngE` over a list of inputs on which `f` always succeeds and
always consumes exactly `c` draws: the whole run succeeds, consumes
`c * length` draws, and the output at index `i` is the output of `f` on the
input at index `i` run on the RNG advanced by `c * i` draws. -/
theorem mapRngE_consume (f : α → Rng → Except OTError β × Rng) (c : Nat)
    (l : List α) (rng : Rng)
    (hf : ∀ a, ∀ rng1 : Rng, a ∈ l → ∃ b, f a rng1 = (.ok b, rng1.advance c)) :
    ∃ ts : List β,
      mapRngE f l rng = (.ok ts, rng.advance (c * l.length)) ∧
      ts.length = l.length ∧
      ∀ i : Nat, ∀ d : α, ∀ d2 : β, i < l.length →
        (f (l.getD i d) (rng.advance (c * i))).1 = .ok (ts.getD i d2) := by
  induction l generalizing rng with
  | nil =>
    refine ⟨[], ?_, rfl, ?_⟩
    · simp [mapRngE, Rng.advance_zero]
    · intro i d d2 hi; cases hi
  | cons a as ih =>
    obtain ⟨b, hb⟩ := hf a rng (List.mem_cons_self a as)
    obtain ⟨ts, hts, hlen, hidx⟩ :=
      ih (rng.advance c) (fun a2 rng1 ha2 => hf a2 rng1 (List.mem_cons_of_mem a ha2))
    refine ⟨b :: ts, ?_, by simp [hlen], ?_⟩
    · have harith : c + c * as.length = c * (as.length + 1) := by ring
      simp [mapRngE, hb, hts, Rng.advance_advance, harith]
    · intro i d d2 hi
      cases i with
      | zero =>
        simpa [Rng.advance_zero, hb] using rfl
      | succ j =>
        have hj := hidx j d d2 (by simpa using hi)
        have harith : c * (j + 1) = c + c * j := by ring
        simpa [harith, ← Rng.advance_advance] using hj

/-- Total analogue of `mapRngE_consume` for `mapRng`. -/
theorem mapRng_consume (f : α → Rng → β × Rng) (c : Nat) (l : List α)
    (rng : Rng) (hf : ∀ a, ∀ rng1 : Rng, (f a rng1).2 = rng1.advance c) :
    (mapRng f l rng).2 = rng.advance (c * l.length) ∧
    (mapRng f l rng).1.length = l.length ∧
    ∀ i : Nat, ∀ d : α, ∀ d2 : β, i < l.length →
      (mapRng f l rng).1.getD i d2 = (f (l.getD i d) (rng.advance (c * i))).1 := by
  induction l generalizing rng with
  | nil =>
    refine ⟨by simp [mapRng, Rng.advance_zero], rfl, ?_⟩
    intro i d d2 hi; cases hi
  | cons a as ih =>
    obtain ⟨hcons, hlen, hidx⟩ := ih (rng.advance c)
    have hfa : f a rng = ((f a rng).1, rng.advance c) := by
      rw [← hf a rng]
    refine ⟨?_, ?_, ?_⟩
    · have harith : c + c * as.length = c * (as.length + 1) := by ring
      simp only [mapRng]
      rw [hfa]
      simp only []
      rw [hcons, Rng.advance_advance, harith]
      simp
    · simp only [mapRng]
      rw [hfa]
      simpa using hlen
    · intro i d d2 hi
      simp only [mapRng]
      rw [hfa]
      cases i with
      | zero => simp [Rng.advance_zero]
      | succ j =>
        have hj := hidx j d d2 (by simpa using hi)
        have harith : c * (j + 1) = c + c * j := by ring
        simpa [harith, ← Rng.advance_advance] using hj

/-- Running `mapE` over a list on which `f` always succeeds: the whole run
succeeds, preserves the length, and acts index-wise. -/
theorem mapE_ok (f : α → Except OTError β) (l : List α)
    (hf : ∀ a ∈ l, ∃ b, f a = .ok b) :
    ∃ bs : List β,
      mapE f l = .ok bs ∧ bs.length = l.length ∧
      ∀ i : Nat, ∀ d : α, ∀ d2 : β, i < l.length →
        f (l.getD i d) = .ok (bs.getD i d2) := by
  induction l with
  | nil =>
    refine ⟨[], rfl, rfl, ?_⟩
    intro i d d2 hi; cases hi
  | cons a as ih =>
    obtain ⟨b, hb⟩ := hf a (List.mem_cons_self a as)
    obtain ⟨bs, hbs, hlen, hidx⟩ :=
      ih (fun a2 ha2 => hf a2 (List.mem_cons_of_mem a ha2))
    refine ⟨b :: bs, ?_, by simp [hlen], ?_⟩
    · simp [mapE, hb, hbs]
    · intro i d d2 hi
      cases i with
      | zero => simpa using hb
      | succ j => simpa using hidx j d d2 (by simpa using hi)

/-! Further round-function lemmas for the direct group-element variant. -/

theorem second_round_group_eq (x_0 : GE) (h_0 : GE) (x_1 : GE) (h_1 : GE)
    (rng : Rng) :
    second_round_group x_0 h_0 x_1 h_1 rng =
      ((pmul generator (rng.stream rng.idx),
        padd (pmul h_0 (rng.stream rng.idx)) x_0,
        padd (pmul h_1 (rng.stream rng.idx)) x_1),
       rng.advance 1) := rfl

theorem output_computation_group_valid (sigma : Nat)
    (h : sigma = 0 ∨ sigma = 1) (a_i : FE) (u : GE) (v_0 v_1 : GE) :
    output_computation_group sigma a_i u v_0 v_1 =
      .ok (psub (if sigma = 0 then v_0 else v_1) (pmul u a_i)) := by
  rcases h with h | h <;> subst h <;> rfl

/-! Concrete instantiations used by the witness theorems: two explicit RNG
streams and a KDF stand-in with SHA-256's digest length. -/

def wstreamA : Rng := ⟨fun n => (n : FE) + 2, 0⟩

def wstreamB : Rng := ⟨fun n => (n : FE) + 7, 0⟩

def wkdf : GE → List Nat := fun _ => List.replicate 32 0

/-! Claim theorems. -/

/-- C1: for every `sigma ∈ {0,1}` and every pair of messages whose length
equals the 32-byte KDF output size, the honest pipeline
`first_round → second_round → output_computation` returns exactly `x_sigma`,
for any choice of the random scalars drawn inside the rounds. -/
theorem claim_C1 (kdf : GE → List Nat) (Hkdf : ∀ p, (kdf p).length = 32)
    (sigma : Nat) (hσ : sigma = 0 ∨ sigma = 1) (x_0 x_1 : List Nat)
    (hx0 : x_0.length = 32) (hx1 : x_1.length = 32) (rng1 rng2 : Rng)
    (a : FE) (h_0 h_1 : GE) (u : GE) (v_0 v_1 : List Nat)
    (hf : (first_round sigma rng1).1 = .ok (a, h_0, h_1))
    (hs : (second_round kdf x_0 h_0 x_1 h_1 rng2).1 = (u, v_0, v_1)) :
    output_computation kdf sigma a u v_0 v_1 =
      .ok (if sigma = 0 then x_0 else x_1) := by
  have h := ot_single_take kdf Hkdf sigma hσ x_0 x_1 rng1 rng2 a h_0 h_1 u
    v_0 v_1 hf hs
  have e0 : x_0.take 32 = x_0 := by rw [← hx0, List.take_length]
  have e1 : x_1.take 32 = x_1 := by rw [← hx1, List.take_length]
  rcases hσ with h0 | h0
  · subst h0
    rw [h, if_pos rfl, e0]
  · subst h0
    rw [h, if_neg (by decide : ¬(1 = 0)), e1]

theorem claim_C1_witness :
    output_computation wkdf 0 2 7 (List.replicate 32 1) (List.replicate 32 2)
      = .ok (if (0 : Nat) = 0 then List.replicate 32 1
             else List.replicate 32 2) :=
  claim_C1 wkdf (fun _ => by simp [wkdf]) 0 (Or.inl rfl)
    (List.replicate 32 1) (List.replicate 32 2) (by simp) (by simp)
    wstreamA wstreamB 2 2 3 7 (List.replicate 32 1) (List.replicate 32 2)
    (by decide) (by decide)

/-- C9: for messages of any common length `L`, the honest pipeline recovers
`x_sigma` exactly when `L ≤ 32`, and exactly the first 32 bytes of `x_sigma`
when `L > 32` (the zip-based XOR truncates to the shorter of the message and
the 32-byte digest). -/
theorem claim_C9 (kdf : GE → List Nat) (Hkdf : ∀ p, (kdf p).length = 32)
    (sigma : Nat) (hσ : sigma = 0 ∨ sigma = 1) (x_0 x_1 : List Nat) (L : Nat)
    (hx0 : x_0.length = L) (hx1 : x_1.length = L) (rng1 rng2 : Rng)
    (a : FE) (h_0 h_1 : GE) (u : GE) (v_0 v_1 : List Nat)
    (hf : (first_round sigma rng1).1 = .ok (a, h_0, h_1))
    (hs : (second_round kdf x_0 h_0 x_1 h_1 rng2).1 = (u, v_0, v_1)) :
    (L ≤ 32 → output_computation kdf sigma a u v_0 v_1 =
      .ok (if sigma = 0 then x_0 else x_1)) ∧
    (32 < L → output_computation kdf sigma a u v_0 v_1 =
      .ok ((if sigma = 0 then x_0 else x_1).take 32)) := by
  have h := ot_single_take kdf Hkdf sigma hσ x_0 x_1 rng1 rng2 a h_0 h_1 u
    v_0 v_1 hf hs
  refine ⟨fun hL => ?_, fun _ => h⟩
  rw [h]
  have hlen : (if sigma = 0 then x_0 else x_1).length ≤ 32 := by
    rw [apply_ite List.length, hx0, hx1, ite_self]
    omega
  rw [List.take_of_length_le hlen]

theorem claim_C9_witness :
    ((33 : Nat) ≤ 32 →
      output_computation wkdf 0 2 7 (List.replicate 32 1) (List.replicate 32 2)
        = .ok (if (0 : Nat) = 0 then List.replicate 33 1
               else List.replicate 33 2)) ∧
    (32 < (33 : Nat) →
      output_computation wkdf 0 2 7 (List.replicate 32 1) (List.replicate 32 2)
        = .ok ((if (0 : Nat) = 0 then List.replicate 33 1
                else List.replicate 33 2).take 32)) :=
  claim_C9 wkdf (fun _ => by simp [wkdf]) 0 (Or.inl rfl)
    (List.replicate 33 1) (List.replicate 33 2) 33 (by simp) (by simp)
    wstreamA wstreamB 2 2 3 7 (List.replicate 32 1) (List.replicate 32 2)
    (by decide) (by decide)

/-- C3: in the direct additive group-element variant (modelled from the spec,
its file is not under `src/`), with `sigma = 1` and group-element messages
`x0 = g^k1`, `x1 = g^k2`, recovery returns `x1` exactly by group equality,
independently of `x0`. -/
theorem claim_C3 (k1 k2 : FE) (rng1 rng2 : Rng) (a : FE)
    (h_0 h_1 u v_0 v_1 : GE)
    (hf : (first_round 1 rng1).1 = .ok (a, h_0, h_1))
    (hs : (second_round_group (pmul generator k1) h_0 (pmul generator k2) h_1
      rng2).1 = (u, v_0, v_1)) :
    output_computation_group 1 a u v_0 v_1 = .ok (pmul generator k2) := by
  rw [first_round_valid 1 rng1 (Or.inr rfl)] at hf
  rw [second_round_group_eq] at hs
  simp only [Except.ok.injEq, Prod.mk.injEq] at hf hs
  obtain ⟨ha, hh0, hh1⟩ := hf
  obtain ⟨hu, hv0, hv1⟩ := hs
  rw [if_neg (by decide : ¬(1 = 0))] at hh0 hh1
  rw [output_computation_group_valid 1 (Or.inr rfl),
    if_neg (by decide : ¬(1 = 0))]
  subst ha hh1 hu hv1
  simp only [psub, padd, pmul, generator]
  congr 1
  ring

theorem claim_C3_witness :
    output_computation_group 1 2 7 32 27 = .ok (pmul generator 13) :=
  claim_C3 11 13 wstreamA wstreamB 2 3 2 7 32 27 (by decide) (by decide)

/-- C4: for `sigma` outside `{0,1}` both `first_round` and
`output_computation` fail with `InvalidChoiceBit` (for all remaining
arguments); for `sigma ∈ {0,1}` neither fails. -/
theorem claim_C4 (kdf : GE → List Nat) (sigma : Nat) (rng : Rng) (a_i : FE)
    (u : GE) (v_0 v_1 : List Nat) :
    (¬(sigma = 0 ∨ sigma = 1) →
      (first_round sigma rng).1 = .error .InvalidChoiceBit ∧
      output_computation kdf sigma a_i u v_0 v_1 = .error .InvalidChoiceBit) ∧
    ((sigma = 0 ∨ sigma = 1) →
      (∃ t, (first_round sigma rng).1 = .ok t) ∧
      (∃ y, output_computation kdf sigma a_i u v_0 v_1 = .ok y)) := by
  constructor
  · intro h
    exact ⟨by rw [first_round_invalid sigma rng h],
      output_computation_invalid kdf sigma h a_i u v_0 v_1⟩
  · intro h
    exact ⟨⟨_, by rw [first_round_valid sigma rng h]⟩,
      ⟨_, output_computation_valid kdf sigma h a_i u v_0 v_1⟩⟩

theorem claim_C4_witness :
    ((first_round 2 wstreamA).1 = .error .InvalidChoiceBit ∧
      output_computation wkdf 2 1 1 [] [] = .error .InvalidChoiceBit) ∧
    ((∃ t, (first_round 0 wstreamA).1 = .ok t) ∧
      (∃ y, output_computation wkdf 0 1 1 [] [] = .ok y)) :=
  ⟨(claim_C4 wkdf 2 wstreamA 1 1 [] []).1 (by decide),
   (claim_C4 wkdf 0 wstreamA 1 1 [] []).2 (Or.inl rfl)⟩

/-- C5: for `sigma ∈ {0,1}`, `first_round` returns the first freshly drawn
scalar as the private scalar `a`, puts the Diffie-Hellman public key `g * a`
in the branch selected by `sigma`, and fills the other branch with the
generator raised to the second, independently drawn scalar, which is not
part of the returned triple. -/
theorem claim_C5 (sigma : Nat) (hσ : sigma = 0 ∨ sigma = 1) (rng : Rng) :
    (first_round sigma rng).1 =
      .ok (rng.stream rng.idx,
        (if sigma = 0 then pmul generator (rng.stream rng.idx)
         else pmul generator (rng.stream (rng.idx + 1))),
        (if sigma = 0 then pmul generator (rng.stream (rng.idx + 1))
         else pmul generator (rng.stream rng.idx))) := by
  rw [first_round_valid sigma rng hσ]

theorem claim_C5_witness :
    (first_round 1 wstreamA).1 =
      .ok (wstreamA.stream wstreamA.idx,
        (if (1 : Nat) = 0 then pmul generator (wstreamA.stream wstreamA.idx)
         else pmul generator (wstreamA.stream (wstreamA.idx + 1))),
        (if (1 : Nat) = 0
         then pmul generator (wstreamA.stream (wstreamA.idx + 1))
         else pmul generator (wstreamA.stream wstreamA.idx))) :=
  claim_C5 1 (Or.inr rfl) wstreamA

/-- C6: every execution of `second_round` uses a single ephemeral scalar `r`:
the returned `u` is `g * r` and both ciphertexts are masked with shared
secrets derived from that same `r` (`k_b = h_b * r`). -/
theorem claim_C6 (kdf : GE → List Nat) (x_0 : List Nat) (h_0 : GE)
    (x_1 : List Nat) (h_1 : GE) (rng : Rng) :
    ∃ r : FE,
      (second_round kdf x_0 h_0 x_1 h_1 rng).1 =
        (pmul generator r, xor (kdf (pmul h_0 r)) x_0,
         xor (kdf (pmul h_1 r)) x_1) :=
  ⟨rng.stream rng.idx, by rw [second_round_eq]⟩

/-- C7: `second_round` checks no message lengths: it is defined for messages
of every byte length, never fails, and each ciphertext simply has the length
of the shorter of the digest and the corresponding message. -/
theorem claim_C7 (kdf : GE → List Nat) (x_0 : List Nat) (h_0 : GE)
    (x_1 : List Nat) (h_1 : GE) (rng : Rng) :
    ((second_round kdf x_0 h_0 x_1 h_1 rng).1.2.1).length
      = min (kdf (pmul h_0 (rng.stream rng.idx))).length x_0.length ∧
    ((second_round kdf x_0 h_0 x_1 h_1 rng).1.2.2).length
      = min (kdf (pmul h_1 (rng.stream rng.idx))).length x_1.length := by
  rw [second_round_eq]
  exact ⟨xor_length _ _, xor_length _ _⟩

/-- C8: a `first_round` call with an invalid choice bit fails before any
randomness is drawn: the RNG state it returns is exactly its input state. -/
theorem claim_C8 (sigma : Nat) (rng : Rng) (h : ¬(sigma = 0 ∨ sigma = 1)) :
    (first_round sigma rng).2 = rng ∧
    (first_round sigma rng).1 = .error .InvalidChoiceBit := by
  rw [first_round_invalid sigma rng h]
  exact ⟨rfl, rfl⟩

theorem claim_C8_witness :
    (first_round 2 wstreamA).2 = wstreamA ∧
    (first_round 2 wstreamA).1 = .error .InvalidChoiceBit :=
  claim_C8 2 wstreamA (by decide)

theorem second_round_batch_eq (kdf : GE → List Nat)
    (x_0_vec : List (List Nat)) (h_0_vec : List GE)
    (x_1_vec : List (List Nat)) (h_1_vec : List GE) (rng : Rng) :
    second_round_batch kdf x_0_vec h_0_vec x_1_vec h_1_vec rng =
      (((mapRng (fun t r => second_round kdf t.1 t.2.1 t.2.2.1 t.2.2.2 r)
          (zip4 x_0_vec h_0_vec x_1_vec h_1_vec) rng).1.map (fun x => x.1),
        (mapRng (fun t r => second_round kdf t.1 t.2.1 t.2.2.1 t.2.2.2 r)
          (zip4 x_0_vec h_0_vec x_1_vec h_1_vec) rng).1.map (fun x => x.2.1),
        (mapRng (fun t r => second_round kdf t.1 t.2.1 t.2.2.1 t.2.2.2 r)
          (zip4 x_0_vec h_0_vec x_1_vec h_1_vec) rng).1.map (fun x => x.2.2)),
       (mapRng (fun t r => second_round kdf t.1 t.2.1 t.2.2.1 t.2.2.2 r)
          (zip4 x_0_vec h_0_vec x_1_vec h_1_vec) rng).2) := rfl

/-- C2: each index of the batched pipeline is exactly one run of the
single-instance pipeline: index `i` of round 1 is `first_round` on choice bit
`i` with the RNG advanced by the `2 * i` draws the previous instances
consumed, index `i` of round 2 is `second_round` with the RNG advanced by
`i` draws, index `i` of round 3 is `output_computation` on the index-`i`
components, and the recovered value at index `i` is `x0[i]` when
`sigma[i] = 0` and `x1[i]` when `sigma[i] = 1`. -/
theorem claim_C2 (kdf : GE → List Nat) (Hkdf : ∀ p, (kdf p).length = 32)
    (sv : List Nat) (x0v x1v : List (List Nat)) (rng1 rng2 : Rng)
    (hσ : ∀ s ∈ sv, s = 0 ∨ s = 1)
    (hx0 : ∀ x ∈ x0v, x.length = 32) (hx1 : ∀ x ∈ x1v, x.length = 32)
    (hl0 : x0v.length = sv.length) (hl1 : x1v.length = sv.length)
    (av : List FE) (h0v h1v : List GE) (uv : List GE)
    (v0v v1v xv : List (List Nat))
    (hf : (first_round_batch sv rng1).1 = .ok (av, h0v, h1v))
    (hs : (second_round_batch kdf x0v h0v x1v h1v rng2).1 = (uv, v0v, v1v))
    (ho : output_computation_batch kdf sv av uv v0v v1v = .ok xv) :
    xv.length = sv.length ∧
    ∀ i : Nat, i < sv.length →
      (first_round (sv.getD i 0) (rng1.advance (2 * i))).1
        = .ok (av.getD i 0, h0v.getD i 0, h1v.getD i 0) ∧
      (second_round kdf (x0v.getD i []) (h0v.getD i 0) (x1v.getD i [])
        (h1v.getD i 0) (rng2.advance i)).1
        = (uv.getD i 0, v0v.getD i [], v1v.getD i []) ∧
      output_computation kdf (sv.getD i 0) (av.getD i 0) (uv.getD i 0)
        (v0v.getD i []) (v1v.getD i []) = .ok (xv.getD i []) ∧
      xv.getD i []
        = (if sv.getD i 0 = 0 then x0v.getD i [] else x1v.getD i []) := by
  -- round 1: run the generic mapRngE lemma on first_round
  obtain ⟨ts, hts, htslen, htsidx⟩ :=
    mapRngE_consume first_round 2 sv rng1
      (fun s rngx hsmem => ⟨_, first_round_valid s rngx (hσ s hsmem)⟩)
  have hfb : (first_round_batch sv rng1).1 =
      .ok (ts.map (fun x => x.1), ts.map (fun x => x.2.1),
        ts.map (fun x => x.2.2)) := by
    unfold first_round_batch
    rw [hts]
  rw [hfb] at hf
  simp only [Except.ok.injEq, Prod.mk.injEq] at hf
  obtain ⟨hav, hh0v, hh1v⟩ := hf
  have havlen : av.length = sv.length := by rw [← hav]; simpa using htslen
  have hh0vlen : h0v.length = sv.length := by rw [← hh0v]; simpa using htslen
  have hh1vlen : h1v.length = sv.length := by rw [← hh1v]; simpa using htslen
  -- round 2: run the generic mapRng lemma on second_round over the multizip
  have hzlen : (zip4 x0v h0v x1v h1v).length = sv.length := by
    rw [zip4_length, hl0, hl1, hh0vlen, hh1vlen]
    omega
  obtain ⟨htmp2, htmplen, htmpidx⟩ :=
    mapRng_consume (fun t r => second_round kdf t.1 t.2.1 t.2.2.1 t.2.2.2 r) 1
      (zip4 x0v h0v x1v h1v) rng2 (fun t r => rfl)
  rw [second_round_batch_eq] at hs
  simp only [Prod.mk.injEq] at hs
  obtain ⟨huv, hv0v, hv1v⟩ := hs
  have huvlen : uv.length = sv.length := by
    rw [← huv]; simp only [List.length_map]; rw [htmplen, hzlen]
  have hv0vlen : v0v.length = sv.length := by
    rw [← hv0v]; simp only [List.length_map]; rw [htmplen, hzlen]
  have hv1vlen : v1v.length = sv.length := by
    rw [← hv1v]; simp only [List.length_map]; rw [htmplen, hzlen]
  -- round 3: run the mapE lemma on output_computation over the multizip
  have hz5len : (zip5 sv av uv v0v v1v).length = sv.length := by
    rw [zip5_length, havlen, huvlen, hv0vlen, hv1vlen]
    omega
  obtain ⟨bs, hbs, hbslen, hbsidx⟩ :=
    mapE_ok
      (fun t => output_computation kdf t.1 t.2.1 t.2.2.1 t.2.2.2.1 t.2.2.2.2)
      (zip5 sv av uv v0v v1v)
      (fun t htmem => by
        have hval := hσ t.1 (zip5_mem_fst sv av uv v0v v1v t htmem)
        exact ⟨_, output_computation_valid kdf t.1 hval t.2.1 t.2.2.1
          t.2.2.2.1 t.2.2.2.2⟩)
  have ho2 : mapE
      (fun t => output_computation kdf t.1 t.2.1 t.2.2.1 t.2.2.2.1 t.2.2.2.2)
      (zip5 sv av uv v0v v1v) = .ok xv := ho
  rw [hbs, Except.ok.injEq] at ho2
  rw [ho2] at hbslen hbsidx
  have hxvlen : xv.length = sv.length := by rw [hbslen, hz5len]
  refine ⟨hxvlen, ?_⟩
  intro i hi
  -- index-wise round 1
  have hts_i := htsidx i 0 (0, 0, 0) hi
  have hav_i : av.getD i 0 = (ts.getD i (0, 0, 0)).1 := by
    rw [← hav]; exact getD_map_lt _ ts i (0, 0, 0) 0 (by omega)
  have hh0v_i : h0v.getD i 0 = (ts.getD i (0, 0, 0)).2.1 := by
    rw [← hh0v]; exact getD_map_lt _ ts i (0, 0, 0) 0 (by omega)
  have hh1v_i : h1v.getD i 0 = (ts.getD i (0, 0, 0)).2.2 := by
    rw [← hh1v]; exact getD_map_lt _ ts i (0, 0, 0) 0 (by omega)
  have hround1 : (first_round (sv.getD i 0) (rng1.advance (2 * i))).1
      = .ok (av.getD i 0, h0v.getD i 0, h1v.getD i 0) := by
    rw [hav_i, hh0v_i, hh1v_i]
    exact hts_i
  -- index-wise round 2
  have hzi : i < (zip4 x0v h0v x1v h1v).length := by omega
  have hz_i := zip4_getD x0v h0v x1v h1v i [] 0 [] 0 hzi
  have hzi0 : i < (zip4 x0v h0v x1v h1v).length := by omega
  have htmp_i := htmpidx i ([], 0, [], 0) (0, [], []) hzi0
  rw [Nat.one_mul, hz_i] at htmp_i
  have huv_i : uv.getD i 0
      = ((mapRng (fun t r => second_round kdf t.1 t.2.1 t.2.2.1 t.2.2.2 r)
          (zip4 x0v h0v x1v h1v) rng2).1.getD i (0, [], [])).1 := by
    rw [← huv]
    exact getD_map_lt _ _ i (0, [], []) 0 (by omega)
  have hv0v_i : v0v.getD i []
      = ((mapRng (fun t r => second_round kdf t.1 t.2.1 t.2.2.1 t.2.2.2 r)
          (zip4 x0v h0v x1v h1v) rng2).1.getD i (0, [], [])).2.1 := by
    rw [← hv0v]
    exact getD_map_lt _ _ i (0, [], []) [] (by omega)
  have hv1v_i : v1v.getD i []
      = ((mapRng (fun t r => second_round kdf t.1 t.2.1 t.2.2.1 t.2.2.2 r)
          (zip4 x0v h0v x1v h1v) rng2).1.getD i (0, [], [])).2.2 := by
    rw [← hv1v]
    exact getD_map_lt _ _ i (0, [], []) [] (by omega)
  have hround2 : (second_round kdf (x0v.getD i []) (h0v.getD i 0)
      (x1v.getD i []) (h1v.getD i 0) (rng2.advance i)).1
      = (uv.getD i 0, v0v.getD i [], v1v.getD i []) := by
    rw [huv_i, hv0v_i, hv1v_i, ← htmp_i]
  -- index-wise round 3
  have hz5i : i < (zip5 sv av uv v0v v1v).length := by omega
  have hz5_i := zip5_getD sv av uv v0v v1v i 0 0 0 [] [] hz5i
  have hbs_i := hbsidx i (0, 0, 0, [], []) [] hz5i
  rw [hz5_i] at hbs_i
  have hround3 : output_computation kdf (sv.getD i 0) (av.getD i 0)
      (uv.getD i 0) (v0v.getD i []) (v1v.getD i []) = .ok (xv.getD i []) :=
    hbs_i
  -- index-wise end-to-end correctness
  have hsi := hσ (sv.getD i 0) (getD_mem_of_lt sv i 0 hi)
  have hcorrect := ot_single_take kdf Hkdf (sv.getD i 0) hsi (x0v.getD i [])
    (x1v.getD i []) (rng1.advance (2 * i)) (rng2.advance i) (av.getD i 0)
    (h0v.getD i 0) (h1v.getD i 0) (uv.getD i 0) (v0v.getD i [])
    (v1v.getD i []) hround1 hround2
  rw [hround3, Except.ok.injEq] at hcorrect
  have hx0len : (x0v.getD i []).length = 32 :=
    hx0 _ (getD_mem_of_lt x0v i [] (by omega))
  have hx1len : (x1v.getD i []).length = 32 :=
    hx1 _ (getD_mem_of_lt x1v i [] (by omega))
  refine ⟨hround1, hround2, hround3, ?_⟩
  rw [hcorrect]
  rcases hsi with hsi0 | hsi1
  · rw [hsi0, if_pos rfl, ← hx0len, List.take_length]
  · rw [hsi1, if_neg (by decide : ¬(1 = 0)), ← hx1len, List.take_length]

theorem claim_C2_witness :
    (([List.replicate 32 1, List.replicate 32 4] : List (List Nat)).length
      = ([0, 1] : List Nat).length) ∧
    (([List.replicate 32 1, List.replicate 32 4] : List (List Nat)).getD 1 []
      = if ([0, 1] : List Nat).getD 1 0 = 0
        then ([List.replicate 32 1, List.replicate 32 3] :
          List (List Nat)).getD 1 []
        else ([List.replicate 32 2, List.replicate 32 4] :
          List (List Nat)).getD 1 []) :=
  ⟨(claim_C2 wkdf (fun _ => by simp [wkdf]) [0, 1]
      [List.replicate 32 1, List.replicate 32 3]
      [List.replicate 32 2, List.replicate 32 4] wstreamA wstreamB
      (by decide) (by decide) (by decide) (by decide) (by decide)
      [2, 4] [2, 5] [3, 4] [7, 8]
      [List.replicate 32 1, List.replicate 32 3]
      [List.replicate 32 2, List.replicate 32 4]
      [List.replicate 32 1, List.replicate 32 4]
      (by decide) (by decide) (by decide)).1,
   ((claim_C2 wkdf (fun _ => by simp [wkdf]) [0, 1]
      [List.replicate 32 1, List.replicate 32 3]
      [List.replicate 32 2, List.replicate 32 4] wstreamA wstreamB
      (by decide) (by decide) (by decide) (by decide) (by decide)
      [2, 4] [2, 5] [3, 4] [7, 8]
      [List.replicate 32 1, List.replicate 32 3]
      [List.replicate 32 2, List.replicate 32 4]
      [List.replicate 32 1, List.replicate 32 4]
      (by decide) (by decide) (by decide)).2 1 (by decide)).2.2.2⟩

theorem zip4_eq_nil (as : List α) (bs : List β) (cs : List γ) (ds : List δ)
    (h : min (min (min as.length bs.length) cs.length) ds.length = 0) :
    zip4 as bs cs ds = [] := by
  have hl := zip4_length as bs cs ds
  rw [h] at hl
  exact List.length_eq_zero.1 hl

theorem zip5_eq_nil (as : List α) (bs : List β) (cs : List γ) (ds : List δ)
    (es : List ε)
    (h : min (min (min (min as.length bs.length) cs.length) ds.length)
      es.length = 0) :
    zip5 as bs cs ds es = [] := by
  have hl := zip5_length as bs cs ds es
  rw [h] at hl
  exact List.length_eq_zero.1 hl

theorem zip4_nil1 (bs : List β) (cs : List γ) (ds : List δ) :
    zip4 ([] : List α) bs cs ds = [] :=
  zip4_eq_nil _ _ _ _ (by simp)

theorem zip4_nil2 (as : List α) (cs : List γ) (ds : List δ) :
    zip4 as ([] : List β) cs ds = [] :=
  zip4_eq_nil _ _ _ _ (by simp)

theorem zip4_nil3 (as : List α) (bs : List β) (ds : List δ) :
    zip4 as bs ([] : List γ) ds = [] :=
  zip4_eq_nil _ _ _ _ (by simp)

theorem zip4_nil4 (as : List α) (bs : List β) (cs : List γ) :
    zip4 as bs cs ([] : List δ) = [] :=
  zip4_eq_nil _ _ _ _ (by simp)

theorem zip5_nil1 (bs : List β) (cs : List γ) (ds : List δ) (es : List ε) :
    zip5 ([] : List α) bs cs ds es = [] :=
  zip5_eq_nil _ _ _ _ _ (by simp)

theorem zip5_nil2 (as : List α) (cs : List γ) (ds : List δ) (es : List ε) :
    zip5 as ([] : List β) cs ds es = [] :=
  zip5_eq_nil _ _ _ _ _ (by simp)

theorem zip5_nil3 (as : List α) (bs : List β) (ds : List δ) (es : List ε) :
    zip5 as bs ([] : List γ) ds es = [] :=
  zip5_eq_nil _ _ _ _ _ (by simp)

theorem zip5_nil4 (as : List α) (bs : List β) (cs : List γ) (es : List ε) :
    zip5 as bs cs ([] : List δ) es = [] :=
  zip5_eq_nil _ _ _ _ _ (by simp)

theorem zip5_nil5 (as : List α) (bs : List β) (cs : List γ) (ds : List δ) :
    zip5 as bs cs ds ([] : List ε) = [] :=
  zip5_eq_nil _ _ _ _ _ (by simp)

theorem zip4_take (as : List α) (bs : List β) (cs : List γ) (ds : List δ)
    (m : Nat)
    (hm : min (min (min as.length bs.length) cs.length) ds.length ≤ m) :
    zip4 (as.take m) (bs.take m) (cs.take m) (ds.take m)
      = zip4 as bs cs ds := by
  induction as generalizing bs cs ds m with
  | nil => rw [List.take_nil, zip4_nil1, zip4_nil1]
  | cons a as ih =>
    cases bs with
    | nil => rw [List.take_nil, zip4_nil2, zip4_nil2]
    | cons b bs =>
      cases cs with
      | nil => rw [List.take_nil, zip4_nil3, zip4_nil3]
      | cons c cs =>
        cases ds with
        | nil => rw [List.take_nil, zip4_nil4, zip4_nil4]
        | cons d ds =>
          cases m with
          | zero =>
            exact absurd hm (by simp only [List.length_cons]; omega)
          | succ m2 =>
            simp only [List.take_succ_cons, zip4, List.cons.injEq, true_and]
            exact ih bs cs ds m2 (by simp only [List.length_cons] at hm; omega)

theorem zip5_take (as : List α) (bs : List β) (cs : List γ) (ds : List δ)
    (es : List ε) (m : Nat)
    (hm : min (min (min (min as.length bs.length) cs.length) ds.length)
      es.length ≤ m) :
    zip5 (as.take m) (bs.take m) (cs.take m) (ds.take m) (es.take m)
      = zip5 as bs cs ds es := by
  induction as generalizing bs cs ds es m with
  | nil => rw [List.take_nil, zip5_nil1, zip5_nil1]
  | cons a as ih =>
    cases bs with
    | nil => rw [List.take_nil, zip5_nil2, zip5_nil2]
    | cons b bs =>
      cases cs with
      | nil => rw [List.take_nil, zip5_nil3, zip5_nil3]
      | cons c cs =>
        cases ds with
        | nil => rw [List.take_nil, zip5_nil4, zip5_nil4]
        | cons d ds =>
          cases es with
          | nil => rw [List.take_nil, zip5_nil5, zip5_nil5]
          | cons e es =>
            cases m with
            | zero =>
              exact absurd hm (by simp only [List.length_cons]; omega)
            | succ m2 =>
              simp only [List.take_succ_cons, zip5, List.cons.injEq, true_and]
              exact ih bs cs ds es m2
                (by simp only [List.length_cons] at hm; omega)

/-- C10: batched round 2 and round 3 calls with input vectors of unequal
lengths return normally (given valid choice bits among the zipped entries):
the output vectors have the length of the shortest input, and the entries of
the longer inputs beyond that length are silently ignored — each batch call
equals the same call on the inputs truncated to the common length. -/
theorem claim_C10 (kdf : GE → List Nat) (x0v : List (List Nat))
    (h0v : List GE) (x1v : List (List Nat)) (h1v : List GE) (rng : Rng)
    (sv : List Nat) (av : List FE) (uv : List GE) (v0v v1v : List (List Nat))
    (hσ : ∀ s ∈ sv.take (min (min (min (min sv.length av.length) uv.length)
      v0v.length) v1v.length), s = 0 ∨ s = 1) :
    ((second_round_batch kdf x0v h0v x1v h1v rng).1.1.length
        = min (min (min x0v.length h0v.length) x1v.length) h1v.length ∧
      (second_round_batch kdf x0v h0v x1v h1v rng).1.2.1.length
        = min (min (min x0v.length h0v.length) x1v.length) h1v.length ∧
      (second_round_batch kdf x0v h0v x1v h1v rng).1.2.2.length
        = min (min (min x0v.length h0v.length) x1v.length) h1v.length) ∧
    (second_round_batch kdf
        (x0v.take (min (min (min x0v.length h0v.length) x1v.length)
          h1v.length))
        (h0v.take (min (min (min x0v.length h0v.length) x1v.length)
          h1v.length))
        (x1v.take (min (min (min x0v.length h0v.length) x1v.length)
          h1v.length))
        (h1v.take (min (min (min x0v.length h0v.length) x1v.length)
          h1v.length)) rng
      = second_round_batch kdf x0v h0v x1v h1v rng) ∧
    (∃ xv, output_computation_batch kdf sv av uv v0v v1v = .ok xv ∧
      xv.length = min (min (min (min sv.length av.length) uv.length)
        v0v.length) v1v.length) ∧
    (output_computation_batch kdf
        (sv.take (min (min (min (min sv.length av.length) uv.length)
          v0v.length) v1v.length))
        (av.take (min (min (min (min sv.length av.length) uv.length)
          v0v.length) v1v.length))
        (uv.take (min (min (min (min sv.length av.length) uv.length)
          v0v.length) v1v.length))
        (v0v.take (min (min (min (min sv.length av.length) uv.length)
          v0v.length) v1v.length))
        (v1v.take (min (min (min (min sv.length av.length) uv.length)
          v0v.length) v1v.length))
      = output_computation_batch kdf sv av uv v0v v1v) := by
  obtain ⟨htmp2, htmplen, htmpidx⟩ :=
    mapRng_consume (fun t r => second_round kdf t.1 t.2.1 t.2.2.1 t.2.2.2 r) 1
      (zip4 x0v h0v x1v h1v) rng (fun t r => rfl)
  have hz4 : (zip4 x0v h0v x1v h1v).length
      = min (min (min x0v.length h0v.length) x1v.length) h1v.length :=
    zip4_length x0v h0v x1v h1v
  have hmem5 : ∀ t ∈ zip5 sv av uv v0v v1v,
      t.1 = 0 ∨ t.1 = 1 := by
    intro t ht
    rw [← zip5_take sv av uv v0v v1v
      (min (min (min (min sv.length av.length) uv.length) v0v.length)
        v1v.length) (le_refl _)] at ht
    exact hσ t.1 (zip5_mem_fst _ _ _ _ _ t ht)
  obtain ⟨bs, hbs, hbslen, hbsidx⟩ :=
    mapE_ok
      (fun t => output_computation kdf t.1 t.2.1 t.2.2.1 t.2.2.2.1 t.2.2.2.2)
      (zip5 sv av uv v0v v1v)
      (fun t htmem => by
        exact ⟨_, output_computation_valid kdf t.1 (hmem5 t htmem) t.2.1
          t.2.2.1 t.2.2.2.1 t.2.2.2.2⟩)
  refine ⟨⟨?_, ?_, ?_⟩, ?_, ?_, ?_⟩
  · rw [second_round_batch_eq]
    simp only [List.length_map]
    rw [htmplen, hz4]
  · rw [second_round_batch_eq]
    simp only [List.length_map]
    rw [htmplen, hz4]
  · rw [second_round_batch_eq]
    simp only [List.length_map]
    rw [htmplen, hz4]
  · unfold second_round_batch
    rw [zip4_take x0v h0v x1v h1v _ (le_refl _)]
  · refine ⟨bs, hbs, ?_⟩
    rw [hbslen, zip5_length]
  · unfold output_computation_batch
    rw [zip5_take sv av uv v0v v1v _ (le_refl _)]

theorem claim_C10_witness :
    ((second_round_batch wkdf [[1], [2], [3]] [5, 6] [[4], [7]] [8, 9, 10]
        wstreamB).1.1.length
      = min (min (min ([[1], [2], [3]] : List (List Nat)).length
          ([5, 6] : List GE).length) ([[4], [7]] : List (List Nat)).length)
          ([8, 9, 10] : List GE).length) ∧
    (∃ xv, output_computation_batch wkdf [0, 1, 2] [1, 2] [3, 4]
        [[1], [2]] [[3], [4]] = .ok xv ∧
      xv.length = min (min (min (min ([0, 1, 2] : List Nat).length
        ([1, 2] : List FE).length) ([3, 4] : List GE).length)
        ([[1], [2]] : List (List Nat)).length)
        ([[3], [4]] : List (List Nat)).length) :=
  ⟨(claim_C10 wkdf [[1], [2], [3]] [5, 6] [[4], [7]] [8, 9, 10] wstreamB
      [0, 1, 2] [1, 2] [3, 4] [[1], [2]] [[3], [4]] (by decide)).1.1,
   (claim_C10 wkdf [[1], [2], [3]] [5, 6] [[4], [7]] [8, 9, 10] wstreamB
      [0, 1, 2] [1, 2] [3, 4] [[1], [2]] [[3], [4]] (by decide)).2.2.1⟩

end ALSZ13
